import Mathlib

/-!
Verification development for the minipp MINI-format configuration engine
(single-header C++ implementation, `src/minipp/minipp.hpp`).

The C++ code is shallowly embedded: `std::string` is modeled as `List Char`,
`int64_t` as `Int` with explicit two's-complement reduction where the code
relies on it, `std::unordered_map` as an association list, raw error codes as
the `EResult` enumeration, and undefined behaviour (reading a `std::string`
at an index greater than its size) as the distinguished outcome `CRes.oob`.
All definitions are executable and kernel-reducible; recursion that the C++
performs on ever-shorter substrings is realised with an explicit fuel
parameter plus fuel-sufficiency lemmas, so concrete runs evaluate by `rfl` /
`decide`.
-/

deriving instance DecidableEq for Except

namespace Minipp

/-- A C++ `std::string`, as a list of characters. -/
abbrev Str := List Char

/-- `minipp::EResult` (minipp.hpp lines 33-66). -/
inductive EResult where
  | KeyNotPresent
  | KeyAlreadyPresent
  | SectionNotPresent
  | SectionAlreadyPresent
  | FileIOError
  | InvalidDataType
  | FormatError
  | ArrayDataTypeInconsistency
  | BadEscapeSequence
  | UnknownEscapeSequence
  | UnescapedStringValue
  | ValueEmpty
  | IntegerValueInvalid
  | IntegerValueOutOfRange
  | IntegerStyleInvalid
  | FloatValueInvalid
  | BooleanValueInvalid
  | ArrayNotEnclosed
  | ArrayBracketsInbalanced
  | InvalidName
  | SectionExpectedClosingBracket
  | EmptySectionName
  | KeyValuePairNotInSection
  | ExpectedKeyValuePair
  | KeyEmpty
  | MissingQuote
  | Success
  | ValueOverwritten
deriving DecidableEq, Repr

/-- `minipp::EIntStyle` (minipp.hpp lines 68-73). -/
inductive EIntStyle where
  | Decimal
  | Hexadecimal
  | Binary
deriving DecidableEq, Repr

/-- Outcome of running a piece of the C++ code: either an `EResult` value, or
`oob`, marking that the run performed an out-of-bounds `std::string` read
(undefined behaviour in C++). -/
inductive CRes where
  | res (e : EResult)
  | oob
deriving DecidableEq, Repr

/-! ## Tools (minipp.hpp lines 1007-1127) -/

/-- A space or tab, the characters `Tools::StringTrim` strips. -/
def isWsST (c : Char) : Bool := c == ' ' || c == '\t'

/-- The first loop of `Tools::StringTrim` (line 1039): advance `start` while
the character is a space/tab.  Reading `str[size()]` yields the null
character (well defined in C++11), which stops the loop, so this loop is
modeled by consuming the character list. -/
def trimStartGo : Str → Nat → Nat
  | [], acc => acc
  | c :: rest, acc => if isWsST c then trimStartGo rest (acc + 1) else acc

/-- The second loop of `Tools::StringTrim` (line 1041): decrement `end` while
the character is a space/tab.  `end` has type `size_t`; when every character
is a space/tab the decrement at index 0 wraps to `2^64 - 1` and the next
iteration reads `str[2^64 - 1]`, an out-of-bounds read — modeled as `none`. -/
def trimEndGo (s : Str) : Nat → Option Nat
  | 0 => if isWsST (s.getD 0 ' ') then none else some 0
  | i + 1 => if isWsST (s.getD (i + 1) ' ') then trimEndGo s i else some (i + 1)

/-- `Tools::StringTrim` (minipp.hpp lines 1032-1044).  `none` means the run
performed an out-of-bounds read (all-whitespace input). -/
def stringTrim (s : Str) : Option Str :=
  if s = [] then some s
  else
    let start := trimStartGo s 0
    match trimEndGo s (s.length - 1) with
    | none => none
    | some e => some ((s.drop start).take (e - start + 1))

/-- `Tools::IsNameValid` (minipp.hpp lines 1046-1060). -/
def isNameValid (name : Str) : Bool :=
  name.all fun c =>
    ('a' ≤ c && c ≤ 'z') || ('A' ≤ c && c ≤ 'Z') || ('0' ≤ c && c ≤ '9') || c == '_'

/-- Loop of `Tools::FirstIndexOf` (minipp.hpp lines 1062-1073). -/
def firstIndexOfGo (c : Char) : Str → Nat → Option Nat
  | [], _ => none
  | x :: rest, i => if x = c then some i else firstIndexOfGo c rest (i + 1)

/-- `Tools::FirstIndexOf`; `none` models the C++ return value `-1`. -/
def firstIndexOf (s : Str) (c : Char) : Option Nat := firstIndexOfGo c s 0

/-- `Tools::SplitInTwo` (minipp.hpp lines 1088-1091):
`(str.substr(0, firstLength), str.substr(firstLength + 1))`. -/
def splitInTwo (s : Str) (firstLength : Nat) : Str × Str :=
  (s.take firstLength, s.drop (firstLength + 1))

/-- `Tools::SplitByDelimiter` (minipp.hpp lines 1093-1113).  An empty chunk
between two delimiters is pushed; an empty trailing chunk is not. -/
def splitByDelimiter : Str → Char → List Str
  | s, delim =>
    let rec go : Str → Str → List Str
      | [], tmp => if tmp = [] then [] else [tmp]
      | c :: rest, tmp =>
        if c = delim then tmp :: go rest [] else go rest (tmp ++ [c])
    go s []

/-- `Tools::RemoveAll` (minipp.hpp lines 1115-1118). -/
def removeAll (s : Str) (old : Char) : Str := s.filter (fun c => c != old)

/-- `Tools::IsIntegerDecimal` (minipp.hpp lines 1120-1127). -/
def isIntegerDecimal (s : Str) : Bool := s.all fun c => '0' ≤ c && c ≤ '9'

/-! ## A model of `std::stoll` / `std::stod` -/

/-- Error signalled by `std::stoll` via exception. -/
inductive StollErr where
  | invalidArgument
  | outOfRange
deriving DecidableEq, Repr

/-- Whitespace as classified by `isspace` in the default locale. -/
def isCSpace (c : Char) : Bool :=
  c == ' ' || c == '\t' || c == '\n' || c == '\x0b' || c == '\x0c' || c == '\r'

/-- Numeric value of a digit character, letters counting from 10 (as in
`strtoll`). -/
def digitValue (c : Char) : Option Nat :=
  if '0' ≤ c ∧ c ≤ '9' then some (c.toNat - '0'.toNat)
  else if 'a' ≤ c ∧ c ≤ 'z' then some (c.toNat - 'a'.toNat + 10)
  else if 'A' ≤ c ∧ c ≤ 'Z' then some (c.toNat - 'A'.toNat + 10)
  else none

/-- Is `c` a valid digit in the given base? -/
def isBaseDigit (base : Nat) (c : Char) : Bool :=
  match digitValue c with
  | some v => v < base
  | none => false

/-- Value of a digit string in the given base. -/
def digitsVal (base : Nat) (ds : Str) : Nat :=
  ds.foldl (fun a c => a * base + ((digitValue c).getD 0)) 0

/-- Model of `std::stoll(s, nullptr, base)`: skip leading whitespace, an
optional sign, for base 16 an optional `0x`/`0X` prefix (only when a hex
digit follows, as in `strtoll`), then the longest run of base digits.  No
digit at all throws `invalid_argument`; a value outside `int64_t` throws
`out_of_range`. -/
def stoll (base : Nat) (s : Str) : Except StollErr Int :=
  let s1 := s.dropWhile isCSpace
  let sgn : Int := match s1 with
    | '-' :: _ => -1
    | _ => 1
  let s2 : Str := match s1 with
    | '-' :: r => r
    | '+' :: r => r
    | _ => s1
  let s3 : Str :=
    if base = 16 then
      match s2 with
      | '0' :: x :: r =>
        if (x == 'x' || x == 'X') && (match r with | [] => false | d :: _ => isBaseDigit 16 d)
        then r else s2
      | _ => s2
    else s2
  let ds := s3.takeWhile (isBaseDigit base)
  if ds = [] then .error .invalidArgument
  else
    let v : Int := sgn * (digitsVal base ds : Nat)
    if v < -(2 ^ 63) ∨ 2 ^ 63 - 1 < v then .error .outOfRange else .ok v

/-- Decimal-significand tail of the `strtod` model: the longest accepted
prefix of digits, an optional fractional part, and an optional well-formed
exponent; `none` when no digit is consumed at all. -/
def stodDecTail (sgnStr : Str) (s2 : Str) : Option Str :=
  let d1 := s2.takeWhile (isBaseDigit 10)
  let r1 := s2.dropWhile (isBaseDigit 10)
  let frac : Str :=
    match r1 with
    | '.' :: rr => '.' :: rr.takeWhile (isBaseDigit 10)
    | _ => []
  let r2 : Str :=
    match r1 with
    | '.' :: rr => rr.dropWhile (isBaseDigit 10)
    | _ => r1
  if d1 = [] ∧ frac.length ≤ 1 then none
  else
    let expPart : Str :=
      match r2 with
      | e :: rest =>
        if e == 'e' || e == 'E' then
          let sg : Str := match rest with
            | '-' :: _ => ['-']
            | '+' :: _ => ['+']
            | _ => []
          let rest2 : Str := match rest with
            | '-' :: rr => rr
            | '+' :: rr => rr
            | _ => rest
          let eds := rest2.takeWhile (isBaseDigit 10)
          if eds = [] then [] else e :: (sg ++ eds)
        else []
      | [] => []
    some (sgnStr ++ d1 ++ frac ++ expPart)

/-- Case-insensitive prefix test used for the `inf`/`nan` forms of
`strtod`. -/
def startsWithCI (pat : Str) (s : Str) : Bool :=
  pat.length ≤ s.length && ((s.take pat.length).map Char.toLower == pat)

/-- Model of `std::stod`: the prefix of the input it accepts, or `none` when
no conversion can be performed (`std::invalid_argument`).  The double value
itself is not modeled (floating point); a parsed float is represented by the
accepted literal prefix. -/
def stodParse (s : Str) : Option Str :=
  let s1 := s.dropWhile isCSpace
  let sgnStr : Str := match s1 with
    | '-' :: _ => ['-']
    | '+' :: _ => ['+']
    | _ => []
  let s2 : Str := match s1 with
    | '-' :: r => r
    | '+' :: r => r
    | _ => s1
  if startsWithCI ("infinity".toList) s2 then some (sgnStr ++ s2.take 8)
  else if startsWithCI ("inf".toList) s2 then some (sgnStr ++ s2.take 3)
  else if startsWithCI ("nan".toList) s2 then some (sgnStr ++ s2.take 3)
  else
    match s2 with
    | '0' :: x :: r =>
      if x == 'x' || x == 'X' then
        let m1 := r.takeWhile (isBaseDigit 16)
        let r1 := r.dropWhile (isBaseDigit 16)
        let frac : Str :=
          match r1 with
          | '.' :: rr => '.' :: rr.takeWhile (isBaseDigit 16)
          | _ => []
        let r2 : Str :=
          match r1 with
          | '.' :: rr => rr.dropWhile (isBaseDigit 16)
          | _ => r1
        if m1 = [] ∧ frac.length ≤ 1 then stodDecTail sgnStr s2
        else
          let expPart : Str :=
            match r2 with
            | p :: rest =>
              if p == 'p' || p == 'P' then
                let sg : Str := match rest with
                  | '-' :: _ => ['-']
                  | '+' :: _ => ['+']
                  | _ => []
                let rest2 : Str := match rest with
                  | '-' :: rr => rr
                  | '+' :: rr => rr
                  | _ => rest
                let eds := rest2.takeWhile (isBaseDigit 10)
                if eds = [] then [] else p :: (sg ++ eds)
              else []
            | [] => []
          some (sgnStr ++ ('0' :: x :: (m1 ++ frac)) ++ expPart)
      else stodDecTail sgnStr s2
    | _ => stodDecTail sgnStr s2

/-! ## Integer codec (`Values::IntValue`, minipp.hpp lines 480-567) -/

/-- Map the exceptions of `std::stoll` to the `EResult` codes of
`IntValue::Parse`'s catch blocks (lines 515-524). -/
def mapStollResult (style : EIntStyle) (r : Except StollErr Int) :
    Except EResult (Int × EIntStyle) :=
  match r with
  | .ok v => .ok (v, style)
  | .error .invalidArgument => .error .IntegerValueInvalid
  | .error .outOfRange => .error .IntegerValueOutOfRange

/-- `Values::IntValue::Parse` (minipp.hpp lines 480-527).  Note that
`lastCharacter` and `rest` are taken from the ORIGINAL string `str`, not the
underscore-cleaned `sanitizedValue`; only the decimal branch uses the cleaned
string. -/
def intParse (s : Str) : Except EResult (Int × EIntStyle) :=
  match s with
  | [] => .error .FormatError
  | c :: cs =>
    let sanitizedValue := removeAll (c :: cs) '_'
    if sanitizedValue = [] then .error .FormatError
    else
      let lastCharacter := (c :: cs).getLast (List.cons_ne_nil c cs)
      let rest := (c :: cs).dropLast
      if lastCharacter = 'h' then mapStollResult .Hexadecimal (stoll 16 rest)
      else if lastCharacter = 'b' then mapStollResult .Binary (stoll 2 rest)
      else if isIntegerDecimal sanitizedValue then
        mapStollResult .Decimal (stoll 10 sanitizedValue)
      else .error .IntegerValueInvalid

/-- The 64-bit two's-complement bit pattern of an `int64_t`, as a natural
number (what `std::bitset<64>` and the hex stream inserter operate on). -/
def toUInt64Repr (v : Int) : Nat := (v % (2 ^ 64 : Int)).toNat

/-- `Values::IntValue::ToString` (minipp.hpp lines 529-567).  Decimal uses
`std::to_string`; hexadecimal streams with `std::hex` (lowercase, no prefix)
plus `'h'`; binary renders a 64-bit `std::bitset`, appends `'b'`, then strips
everything before the first `'1'`, falling back to `"0b"` when there is
none. -/
def intToString (v : Int) (style : EIntStyle) : Str :=
  match style with
  | .Decimal =>
    if v < 0 then '-' :: Nat.toDigits 10 (-v).toNat else Nat.toDigits 10 v.toNat
  | .Hexadecimal => Nat.toDigits 16 (toUInt64Repr v) ++ ['h']
  | .Binary =>
    let ds := Nat.toDigits 2 (toUInt64Repr v)
    let dest := List.replicate (64 - ds.length) '0' ++ ds ++ ['b']
    match List.findIdx? (fun ch => ch == '1') dest with
    | some i => dest.drop i
    | none => ['0', 'b']

/-! ## The value model (`MiniPPFile::Value` and `MiniPPFile::Values`) -/

/-- The closed set of concrete `Value` subclasses.  `typeid` comparison on
parsed values (array homogeneity) is equality of these tags. -/
inductive VTag where
  | str
  | int
  | float
  | bool
  | arr
deriving DecidableEq, Repr

/-- A parsed `MiniPPFile::Value`.  `float` carries the literal prefix that
`std::stod` consumed (the double itself is floating point and is not
modeled); `int` carries the value and its radix style.  Comments attached to
values are modeled at the section-entry level: `ParseValue` always produces
values with empty comment vectors, and only top-level entries ever receive
comments. -/
inductive Value where
  | str (s : Str)
  | int (v : Int) (style : EIntStyle)
  | float (consumed : Str)
  | bool (b : Bool)
  | arr (elems : List Value)
deriving Repr

/-- The dynamic type tag of a value (`typeid(*v)`). -/
def Value.tag : Value → VTag
  | .str _ => .str
  | .int _ _ => .int
  | .float _ => .float
  | .bool _ => .bool
  | .arr _ => .arr

/-- `Values::StringValue::Parse` (minipp.hpp lines 398-442): unescape the
interior of a string literal. -/
def unescape : Str → Except EResult Str
  | [] => .ok []
  | '\\' :: rest =>
    match rest with
    | [] => .error .BadEscapeSequence
    | e :: rest' =>
      let m : Option Char :=
        if e = '"' then some '"'
        else if e = 'n' then some '\n'
        else if e = 't' then some '\t'
        else if e = 'r' then some '\r'
        else if e = '\\' then some '\\'
        else none
      match m with
      | none => .error .UnknownEscapeSequence
      | some ch =>
        match unescape rest' with
        | .ok tail => .ok (ch :: tail)
        | .error er => .error er
  | '"' :: _ => .error .UnescapedStringValue
  | c :: rest =>
    match unescape rest with
    | .ok tail => .ok (c :: tail)
    | .error er => .error er

/-- `Values::BooleanValue::Parse` (minipp.hpp lines 569-581). -/
def boolParse (s : Str) : Except EResult Bool :=
  if s = "true".toList then .ok true
  else if s = "false".toList then .ok false
  else .error .BooleanValueInvalid

/-- `Values::FloatValue::Parse` (minipp.hpp lines 589-602): `std::stod`, any
exception mapped to `FloatValueInvalid`. -/
def floatParse (s : Str) : Except EResult Str :=
  match stodParse s with
  | none => .error .FloatValueInvalid
  | some consumed => .ok consumed

/-! ## The array element scanner (`Values::ArrayValue::Parse`, lines 616-720) -/

/-- End of the scanning loop of `ArrayValue::Parse` (lines 690-697): check
bracket balance and push a non-empty final element. -/
def arrFinish (depth : Int) (cur : Str) (elems : List Str) :
    Except EResult (List Str) :=
  if depth ≠ 0 then .error .ArrayBracketsInbalanced
  else if cur ≠ [] then .ok (elems ++ [cur])
  else .ok elems

/-- The character loop of `ArrayValue::Parse` (lines 630-688): split the
token into top-level comma-separated element strings, tracking bracket depth
and string-quoting state.  Note the comma branch pushes `cur` even when it is
empty. -/
def arrScanGo (depth : Int) (inStr : Bool) (cur : Str) (elems : List Str) :
    Str → Except EResult (List Str)
  | [] => arrFinish depth cur elems
  | c :: rest =>
    if inStr then
      if c = '\\' then
        match rest with
        | [] => .error .BadEscapeSequence
        | d :: rest' => arrScanGo depth true (cur ++ ['\\', d]) elems rest'
      else if c = '"' then arrScanGo depth false (cur ++ ['"']) elems rest
      else arrScanGo depth true (cur ++ [c]) elems rest
    else if c = '\\' then
      match rest with
      | [] => arrFinish depth cur elems
      | _ :: rest' => arrScanGo depth inStr cur elems rest'
    else if c = '"' then arrScanGo depth true (cur ++ ['"']) elems rest
    else if c = '[' then
      arrScanGo (depth + 1) inStr (if depth + 1 > 1 then cur ++ ['['] else cur) elems rest
    else if c = ']' then
      if depth - 1 < 0 then .error .ArrayBracketsInbalanced
      else arrScanGo (depth - 1) inStr (if depth - 1 ≥ 1 then cur ++ [']'] else cur) elems rest
    else if c = ',' ∧ depth = 1 then arrScanGo depth inStr [] (elems ++ [cur]) rest
    else if c = ' ' ∨ c = '\t' then arrScanGo depth inStr cur elems rest
    else arrScanGo depth inStr (cur ++ [c]) elems rest

/-- The element strings `ArrayValue::Parse` extracts from an array token. -/
def splitElements (v : Str) : Except EResult (List Str) :=
  arrScanGo 0 false [] [] v

/-- The element loop of `ArrayValue::Parse` (lines 698-717): parse each
element with the supplied value parser; the first successfully parsed element
fixes the type tag; later elements with a different tag fail
`ArrayDataTypeInconsistency`. -/
def goElems (pv : Str → Except CRes Value) :
    List Str → Option VTag → List Value → Except CRes (List Value)
  | [], _, acc => .ok acc
  | e :: es, t?, acc =>
    match pv e with
    | .error err => .error err
    | .ok v =>
      match t? with
      | none => goElems pv es (some v.tag) (acc ++ [v])
      | some t =>
        if v.tag = t then goElems pv es (some t) (acc ++ [v])
        else .error (.res .ArrayDataTypeInconsistency)

/-! ## `Value::ParseValue` (minipp.hpp lines 338-394)

`ParseValue` recurses through `ArrayValue::Parse` on element strings, which
are strictly shorter than the array token; the recursion is realised with a
fuel parameter (one unit per nesting level, `length + 1` always suffices) so
that it stays structural and kernel-reducible.  `value.front()` / `.back()`
on an empty token is an out-of-bounds read in C++, modeled as `CRes.oob`. -/

/-- Lift a value-codec result into `ParseValue`'s result type. -/
def liftE (f : α → Value) : Except EResult α → Except CRes Value
  | .ok a => .ok (f a)
  | .error e => .error (.res e)

/-- `Values::ArrayValue::Parse` (minipp.hpp lines 616-720), parameterized by
the parser used for element strings (line 704's recursive `ParseValue`
call).  `str.front()` on an empty token is an out-of-bounds read. -/
def arrayParseWith (pv : Str → Except CRes Value) (v : Str) : Except CRes Value :=
  match v with
  | [] => .error .oob
  | c :: cs =>
    if c ≠ '[' ∨ (c :: cs).getLast (List.cons_ne_nil c cs) ≠ ']' then
      .error (.res .FormatError)
    else
      match splitElements (c :: cs) with
      | .error e => .error (.res e)
      | .ok els => (goElems pv els none []).map Value.arr

/-- The body of `Value::ParseValue` (minipp.hpp lines 338-394), parameterized
by the parser used (through `ArrayValue::Parse`) for array elements.
`value.front()` / `value.back()` on an empty token is an out-of-bounds
read. -/
def parseValueBody (pv : Str → Except CRes Value) : Str → Except CRes Value
  | [] => .error .oob
  | c :: cs =>
    let v := c :: cs
    let lastC := (c :: cs).getLast (List.cons_ne_nil c cs)
    if c = '"' then
      if lastC ≠ '"' then .error (.res .MissingQuote)
      else liftE Value.str (unescape ((v.drop 1).take (v.length - 2)))
    else if lastC = 'e' then liftE Value.bool (boolParse v)
    else if lastC = 'f' then liftE Value.float (floatParse v)
    else if lastC = ']' then arrayParseWith pv v
    else liftE (fun p => Value.int p.1 p.2) (intParse v)

/-- `Value::ParseValue` with explicit fuel (one unit per array-nesting
level). -/
def parseValueF : Nat → Str → Except CRes Value
  | 0, _ => .error .oob
  | fuel + 1, v => parseValueBody (parseValueF fuel) v

/-- `Value::ParseValue` (minipp.hpp lines 338-394). -/
def parseValue (v : Str) : Except CRes Value := parseValueF (v.length + 1) v

/-- Standalone `Values::ArrayValue::Parse` (minipp.hpp lines 616-720),
elements parsed by the full `ParseValue`. -/
def arrayParse (v : Str) : Except CRes Value := arrayParseWith parseValue v

/-! ## The section tree (`MiniPPFile::Section`, minipp.hpp lines 193-281)

`std::unordered_map` is modeled as an association list with unique keys
(`operator[]` assignment replaces in place, insertion appends).  A value
entry is the pair (parsed value, attached comment lines). -/

/-- A `MiniPPFile::Section`: key→value map, name→subsection map, comment
lines. -/
inductive Sect where
  | mk (values : List (Str × (Value × List Str))) (subs : List (Str × Sect))
      (comments : List Str)

/-- The key→value map of a section. -/
def Sect.values : Sect → List (Str × (Value × List Str))
  | ⟨v, _, _⟩ => v

/-- The name→subsection map of a section. -/
def Sect.subs : Sect → List (Str × Sect)
  | ⟨_, s, _⟩ => s

/-- The comment lines attached to a section. -/
def Sect.comments : Sect → List Str
  | ⟨_, _, c⟩ => c

/-- A default-constructed `Section{}`. -/
def emptySect : Sect := ⟨[], [], []⟩

/-- `unordered_map::find`. -/
def alookup {α : Type} : List (Str × α) → Str → Option α
  | [], _ => none
  | (k', a) :: rest, k => if k' = k then some a else alookup rest k

/-- `unordered_map` `operator[]` assignment: replace if present, append if
absent. -/
def aset {α : Type} : List (Str × α) → Str → α → List (Str × α)
  | [], k, v => [(k, v)]
  | (k', a) :: rest, k, v =>
    if k' = k then (k', v) :: rest else (k', a) :: aset rest k v

/-- `Section::SetValue` (minipp.hpp lines 247-264): fails `KeyAlreadyPresent`
unless `allowOverwrite`; an allowed overwrite releases the old value and
reports `ValueOverwritten` instead of `Success`. -/
def Sect.setValue (s : Sect) (name : Str) (v : Value × List Str)
    (allowOverwrite : Bool) : Sect × EResult :=
  match alookup s.values name with
  | some _ =>
    if allowOverwrite then
      (⟨aset s.values name v, s.subs, s.comments⟩, .ValueOverwritten)
    else (s, .KeyAlreadyPresent)
  | none => (⟨aset s.values name v, s.subs, s.comments⟩, .Success)

/-- `Section::SetSubSection` (minipp.hpp lines 790-801): fails
`SectionAlreadyPresent` unless `allowOverwrite`; NOTE it returns plain
`Success` even when it overwrites. -/
def Sect.setSubSection (s : Sect) (name : Str) (v : Sect)
    (allowOverwrite : Bool) : Sect × EResult :=
  match alookup s.subs name with
  | some _ =>
    if allowOverwrite then
      (⟨s.values, aset s.subs name v, s.comments⟩, .Success)
    else (s, .SectionAlreadyPresent)
  | none => (⟨s.values, aset s.subs name v, s.comments⟩, .Success)

/-- `Section::GetValue<T>` (minipp.hpp lines 217-245) with explicit fuel:
split the key at the first `'.'`, descend through subsections, finally look
the key up in the value map; a `dynamic_cast` to the wrong concrete type
yields `InvalidDataType`.  Fuel `key.length + 1` always suffices. -/
def getValueF : Nat → Sect → Str → VTag → Except EResult Value
  | 0, _, _, _ => .error .KeyNotPresent
  | fuel + 1, s, key, tag =>
    match firstIndexOf key '.' with
    | some i =>
      match alookup s.subs (key.take i) with
      | none => .error .SectionNotPresent
      | some sub => getValueF fuel sub (key.drop (i + 1)) tag
    | none =>
      match alookup s.values key with
      | none => .error .KeyNotPresent
      | some (v, _) => if v.tag = tag then .ok v else .error .InvalidDataType

/-- `Section::GetValue<T>` (minipp.hpp lines 217-245). -/
def Sect.getValue (s : Sect) (key : Str) (tag : VTag) : Except EResult Value :=
  getValueF (key.length + 1) s key tag

/-- `Section::GetSubSection` (minipp.hpp lines 764-788) with explicit fuel. -/
def getSubSectionF : Nat → Sect → Str → Except EResult Sect
  | 0, _, _ => .error .SectionNotPresent
  | fuel + 1, s, key =>
    match firstIndexOf key '.' with
    | none =>
      match alookup s.subs key with
      | none => .error .SectionNotPresent
      | some sub => .ok sub
    | some i =>
      match alookup s.subs (key.take i) with
      | none => .error .SectionNotPresent
      | some sub =>
        if key.drop (i + 1) = [] then .ok sub
        else getSubSectionF fuel sub (key.drop (i + 1))

/-- `Section::GetSubSection` (minipp.hpp lines 764-788). -/
def Sect.getSubSection (s : Sect) (key : Str) : Except EResult Sect :=
  getSubSectionF (key.length + 1) s key

/-- Resolve a list of path segments through nested subsections.  This models
the C++ `Section*` pointer held by the parser (`currentSection`): a pointer
into the tree is represented by the path from the root. -/
def Sect.getAt : Sect → List Str → Option Sect
  | s, [] => some s
  | s, n :: rest =>
    match alookup s.subs n with
    | none => none
    | some ch => ch.getAt rest

/-- Apply `f` to the node a path points to (models mutation through the
`currentSection` pointer; the identity when the path does not resolve, which
never happens for paths the parser holds). -/
def Sect.updateAt (s : Sect) (f : Sect → Sect) : List Str → Sect
  | [] => f s
  | n :: rest =>
    match alookup s.subs n with
    | none => s
    | some ch => ⟨s.values, aset s.subs n (ch.updateAt f rest), s.comments⟩

/-! ## The parser (`MiniPPFile::Parse`, minipp.hpp lines 851-990) -/

/-- The section-header creation loop of `Parse` (minipp.hpp lines 903-926):
walk the dotted path from the root, validating each segment name and creating
missing segments with `SetSubSection(..., false)`.  A `SectionAlreadyPresent`
failure is fatal only on the final (leaf) segment.  Returns the updated tree
(mutations before the failure persist) and the error, if any. -/
def descendCreate : Sect → List Str → Sect × Option EResult
  | s, [] => (s, none)
  | s, name :: rest =>
    if isNameValid name then
      match alookup s.subs name with
      | some child =>
        if rest = [] then (s, some .SectionAlreadyPresent)
        else
          let r := descendCreate child rest
          (⟨s.values, aset s.subs name r.1, s.comments⟩, r.2)
      | none =>
        let r := descendCreate emptySect rest
        (⟨s.values, aset s.subs name r.1, s.comments⟩, r.2)
    else (s, some .InvalidName)

/-- The parser's loop state: the tree built so far, the `currentSection`
pointer (as a path from the root, `none` = `nullptr`), and the pending
comment buffer. -/
structure ParseState where
  root : Sect
  cur : Option (List Str)
  cbuf : List Str

/-- Processing of one input line by `Parse` (minipp.hpp lines 872-987).
`Except.error` is an early `return` out of `Parse`, carrying the tree and the
returned code (or `oob` when the line triggered an out-of-bounds read). -/
def doLine (st : ParseState) (line : Str) : Except (Sect × CRes) ParseState :=
  match stringTrim line with
  | none => .error (st.root, .oob)
  | some [] => .ok st
  | some (c :: cs) =>
    let l := c :: cs
    let lastChar := (c :: cs).getLast (List.cons_ne_nil c cs)
    if c = '#' then .ok { st with cbuf := st.cbuf ++ [l] }
    else if c = '[' then
      if lastChar ≠ ']' then .error (st.root, .res .SectionExpectedClosingBracket)
      else
        match stringTrim ((l.drop 1).take (l.length - 2)) with
        | none => .error (st.root, .oob)
        | some [] => .error (st.root, .res .EmptySectionName)
        | some (p :: ps) =>
          let segs := splitByDelimiter (p :: ps) '.'
          match descendCreate st.root segs with
          | (root', some e) => .error (root', .res e)
          | (root', none) =>
            let root'' := root'.updateAt (fun sec => ⟨sec.values, sec.subs, st.cbuf⟩) segs
            .ok { root := root'', cur := some segs, cbuf := [] }
    else
      match st.cur with
      | none => .error (st.root, .res .KeyValuePairNotInSection)
      | some p =>
        match firstIndexOf l '=' with
        | none => .error (st.root, .res .ExpectedKeyValuePair)
        | some i =>
          let kv := splitInTwo l i
          match stringTrim kv.1, stringTrim kv.2 with
          | none, _ => .error (st.root, .oob)
          | _, none => .error (st.root, .oob)
          | some k, some vtok =>
            if k = [] then .error (st.root, .res .KeyEmpty)
            else if !isNameValid k then .error (st.root, .res .InvalidName)
            else if vtok = [] then .error (st.root, .res .ValueEmpty)
            else
              match parseValue vtok with
              | .error ce => .error (st.root, ce)
              | .ok value =>
                match st.root.getAt p with
                | none => .ok { st with cbuf := [] }
                | some sec =>
                  let sv := sec.setValue k (value, st.cbuf) false
                  if sv.2 = .Success then
                    .ok { root := st.root.updateAt (fun _ => sv.1) p,
                          cur := st.cur, cbuf := [] }
                  else .error (st.root, .res sv.2)

/-- The line loop of `Parse`: fold `doLine` over the input lines; reaching
the end of the file returns `Success`. -/
def parseLines (st : ParseState) : List Str → Sect × CRes
  | [] => (st.root, .res .Success)
  | line :: rest =>
    match doLine st line with
    | .error out => out
    | .ok st' => parseLines st' rest

/-- `MiniPPFile::Parse(path, additional)` (minipp.hpp lines 851-990).  The
file system is modeled as `Option (List Str)`: `none` means the stream fails
to open (`FileIOError`).  When `additional` is false the root section's
comments, values and subsections are cleared BEFORE the file is opened. -/
def ParseFile (root : Sect) (additional : Bool) (file : Option (List Str)) :
    Sect × CRes :=
  let root0 := if additional then root else emptySect
  match file with
  | none => (root0, .res .FileIOError)
  | some lines => parseLines ⟨root0, none, []⟩ lines

/-- Run `MiniPPFile::Parse` on a fresh `MiniPPFile` whose file opens to the
given lines (the common test setup: default-constructed object, one `Parse`
call). -/
def parseRun (lines : List Str) : Sect × CRes :=
  ParseFile emptySect false (some lines)

/-- Whether a call returned successfully (`IsResultOk`-style check on a
typed result). -/
def isOkE {ε α : Type} : Except ε α → Bool
  | .ok _ => true
  | .error _ => false

/-! ## Spec-side definitions (for refinement comparisons) -/

/-- Split a string at every occurrence of a delimiter, keeping empty
segments; written from the spec's words "splits path on the first `.`"
applied repeatedly (so `"a.b.x"` ↦ `["a","b","x"]`). -/
def splitAll (delim : Char) : Str → List Str
  | [] => [[]]
  | c :: rest =>
    match splitAll delim rest with
    | [] => [[]]
    | seg :: segs => if c = delim then [] :: seg :: segs else (c :: seg) :: segs

/-- `GetValue` as the spec describes it: "all segments but the last must
resolve through nested subsections (`SectionNotPresent` if any is missing);
the final segment is looked up as a key in that section (`KeyNotPresent` if
absent, `InvalidDataType` if present but a different variant)". -/
def getValueSpec (s : Sect) (key : Str) (tag : VTag) : Except EResult Value :=
  match s.getAt (splitAll '.' key).dropLast with
  | none => .error .SectionNotPresent
  | some sec =>
    match alookup sec.values ((splitAll '.' key).getLastD []) with
    | none => .error .KeyNotPresent
    | some (v, _) => if v.tag = tag then .ok v else .error .InvalidDataType


/-! ## Helper lemmas -/

theorem arrFinish_mem {depth : Int} {cur : Str} {elems res : List Str}
    (h : arrFinish depth cur elems = .ok res) :
    ∀ e ∈ res, e ∈ elems ∨ e = cur := by
  unfold arrFinish at h
  split at h
  · exact absurd h (by simp)
  · split at h
    · cases h
      intro e he
      rcases List.mem_append.1 he with h1 | h1
      · exact Or.inl h1
      · simp at h1; exact Or.inr h1
    · cases h
      intro e he
      exact Or.inl he

theorem arrScanGo_elem_bound :
    ∀ (input : Str) (depth : Int) (inStr : Bool) (cur : Str) (elems res : List Str),
      arrScanGo depth inStr cur elems input = .ok res →
      ∀ e ∈ res, e ∈ elems ∨ e.length ≤ cur.length + input.length := by
  intro input depth inStr cur elems res h
  induction depth, inStr, cur, elems, input using arrScanGo.induct generalizing res
  case case1 =>
    intro e he
    rw [arrScanGo.eq_def] at h
    rcases arrFinish_mem h e he with h2 | h2
    · exact Or.inl h2
    · exact Or.inr (h2 ▸ Nat.le_add_right _ _)
  case case2 =>
    simp [arrScanGo] at h
  case case3 depth cur elems d tail ih =>
    intro e he
    rw [arrScanGo.eq_def] at h
    simp at h
    rcases ih res h e he with h2 | h2
    · exact Or.inl h2
    · right
      simp only [List.length_append, List.length_cons, List.length_nil] at h2 ⊢
      omega
  case case4 depth cur elems cs hne ih =>
    intro e he
    rw [arrScanGo.eq_def] at h
    simp at h
    rcases ih res h e he with h2 | h2
    · exact Or.inl h2
    · right
      simp only [List.length_append, List.length_cons, List.length_nil] at h2 ⊢
      omega
  case case5 depth cur elems c cs h1 h2 ih =>
    intro e he
    rw [arrScanGo.eq_def] at h
    simp [h1, h2] at h
    rcases ih res h e he with h3 | h3
    · exact Or.inl h3
    · right
      simp only [List.length_append, List.length_cons, List.length_nil] at h3 ⊢
      omega
  case case6 depth inStr cur elems hi =>
    have hb : inStr = false := by simpa using hi
    subst hb
    intro e he
    rw [arrScanGo.eq_def] at h
    simp at h
    rcases arrFinish_mem h e he with h2 | h2
    · exact Or.inl h2
    · exact Or.inr (h2 ▸ Nat.le_add_right _ _)
  case case7 depth inStr cur elems hi d tail ih =>
    have hb : inStr = false := by simpa using hi
    subst hb
    intro e he
    rw [arrScanGo.eq_def] at h
    simp at h
    rcases ih res h e he with h2 | h2
    · exact Or.inl h2
    · right
      simp only [List.length_cons] at h2 ⊢
      omega
  case case8 depth inStr cur elems cs hi hne ih =>
    have hb : inStr = false := by simpa using hi
    subst hb
    intro e he
    rw [arrScanGo.eq_def] at h
    simp at h
    rcases ih res h e he with h2 | h2
    · exact Or.inl h2
    · right
      simp only [List.length_append, List.length_cons, List.length_nil] at h2 ⊢
      omega
  case case9 depth inStr cur elems cs hi h1 h2 ih =>
    have hb : inStr = false := by simpa using hi
    subst hb
    intro e he
    rw [arrScanGo.eq_def] at h
    simp at h
    simp only [gt_iff_lt, show ∀ d : Int, (1 < d + 1) = (0 < d) by intro d; simp] at ih
    rcases ih res h e he with h3 | h3
    · exact Or.inl h3
    · right
      revert h3
      split <;>
        (intro h3
         simp only [List.length_append, List.length_cons, List.length_nil] at h3 ⊢
         omega)
  case case10 depth inStr cur elems cs hi hd h1 h2 h3 =>
    have hb : inStr = false := by simpa using hi
    subst hb
    intro e he
    rw [arrScanGo.eq_def] at h
    simp [hd] at h
  case case11 depth inStr cur elems cs hi hd h1 h2 h3 ih =>
    have hb : inStr = false := by simpa using hi
    subst hb
    intro e he
    rw [arrScanGo.eq_def] at h
    simp [hd] at h
    rcases ih res h e he with h4 | h4
    · exact Or.inl h4
    · right
      revert h4
      split <;>
        (intro h4
         simp only [List.length_append, List.length_cons, List.length_nil] at h4 ⊢
         omega)
  case case12 depth inStr cur elems c cs hi hne1 hne2 hne3 hne4 hcomma ih =>
    have hb : inStr = false := by simpa using hi
    subst hb
    obtain ⟨hc, hdep⟩ := hcomma
    subst hc hdep
    intro e he
    rw [arrScanGo.eq_def] at h
    simp at h
    rcases ih res h e he with h2 | h2
    · rcases List.mem_append.1 h2 with h3 | h3
      · exact Or.inl h3
      · simp at h3
        right
        subst h3
        exact Nat.le_add_right _ _
    · right
      simp only [List.length_cons, List.length_nil] at h2 ⊢
      omega
  case case13 depth inStr cur elems c cs hi hne1 hne2 hne3 hne4 hnc hws ih =>
    have hb : inStr = false := by simpa using hi
    subst hb
    intro e he
    rw [arrScanGo.eq_def] at h
    simp [hne1, hne2, hne3, hne4, hnc, hws] at h
    rcases ih res h e he with h2 | h2
    · exact Or.inl h2
    · right
      simp only [List.length_cons] at h2 ⊢
      omega
  case case14 depth inStr cur elems c cs hi hne1 hne2 hne3 hne4 hnc hnws ih =>
    have hb : inStr = false := by simpa using hi
    subst hb
    intro e he
    rw [arrScanGo.eq_def] at h
    simp [hne1, hne2, hne3, hne4, hnc, hnws] at h
    rcases ih res h e he with h2 | h2
    · exact Or.inl h2
    · right
      simp only [List.length_append, List.length_cons, List.length_nil] at h2 ⊢
      omega


theorem splitElements_elem_lt {cs : Str} {els : List Str}
    (h : splitElements ('[' :: cs) = .ok els) :
    ∀ e ∈ els, e.length < ('[' :: cs).length := by
  unfold splitElements at h
  rw [arrScanGo.eq_def] at h
  simp at h
  intro e he
  rcases arrScanGo_elem_bound cs 1 false [] [] els h e he with h2 | h2
  · simp at h2
  · simp only [List.length_nil, Nat.zero_add, List.length_cons] at h2 ⊢
    omega

theorem goElems_congr {f g : Str → Except CRes Value} :
    ∀ (els : List Str) (t? : Option VTag) (acc : List Value),
      (∀ e ∈ els, f e = g e) → goElems f els t? acc = goElems g els t? acc := by
  intro els
  induction els with
  | nil => intro t? acc _; rfl
  | cons e es ih =>
    intro t? acc h
    simp only [goElems]
    rw [h e (List.mem_cons_self e es)]
    cases hge : g e with
    | error err => simp only [hge]
    | ok v =>
      simp only [hge]
      cases t? with
      | none => exact ih _ _ (fun x hx => h x (List.mem_cons_of_mem e hx))
      | some t =>
        by_cases ht : v.tag = t
        · simp only [ht, if_true, reduceIte]
          exact ih _ _ (fun x hx => h x (List.mem_cons_of_mem e hx))
        · simp only [ht, if_false, reduceIte]

theorem arrayParseWith_congr {f g : Str → Except CRes Value} (v : Str)
    (h : ∀ e : Str, e.length < v.length → f e = g e) :
    arrayParseWith f v = arrayParseWith g v := by
  cases v with
  | nil => rfl
  | cons c cs =>
    simp only [arrayParseWith]
    split
    · rfl
    · next hcond =>
      push_neg at hcond
      obtain ⟨hc, _⟩ := hcond
      subst hc
      cases hse : splitElements ('[' :: cs) with
      | error e => simp [hse]
      | ok els =>
        have hel := splitElements_elem_lt hse
        simp only [hse]
        rw [goElems_congr els none [] (fun e he => h e (hel e he))]

theorem parseValueBody_congr {f g : Str → Except CRes Value} (v : Str)
    (h : ∀ e : Str, e.length < v.length → f e = g e) :
    parseValueBody f v = parseValueBody g v := by
  cases v with
  | nil => rfl
  | cons c cs =>
    simp only [parseValueBody]
    split_ifs <;> first
      | rfl
      | exact arrayParseWith_congr (c :: cs) h

theorem parseValueF_eq : ∀ (fuel : Nat) (v : Str), v.length < fuel →
    parseValueF fuel v = parseValue v := by
  intro fuel
  induction fuel using Nat.strong_induction_on with
  | _ fuel ih =>
    intro v hv
    match fuel, hv with
    | n + 1, hv =>
      show parseValueBody (parseValueF n) v = parseValue v
      have step1 : parseValueBody (parseValueF n) v = parseValueBody parseValue v :=
        parseValueBody_congr v
          (fun e he => ih n (Nat.lt_succ_self n) e
            (lt_of_lt_of_le he (Nat.lt_succ_iff.mp hv)))
      have step2 : parseValue v = parseValueBody (parseValueF v.length) v := rfl
      have step3 : parseValueBody (parseValueF v.length) v = parseValueBody parseValue v :=
        parseValueBody_congr v (fun e he => ih v.length hv e he)
      rw [step1, step2, step3]

theorem parseValue_eq (v : Str) : parseValue v = parseValueBody parseValue v := by
  have : parseValue v = parseValueBody (parseValueF v.length) v := rfl
  rw [this]
  exact parseValueBody_congr v (fun e he => parseValueF_eq v.length e he)


theorem firstIndexOfGo_shift (c : Char) : ∀ (s : Str) (i : Nat),
    firstIndexOfGo c s i = (firstIndexOfGo c s 0).map (· + i) := by
  intro s
  induction s with
  | nil => intro i; rfl
  | cons x rest ih =>
    intro i
    simp only [firstIndexOfGo]
    by_cases hx : x = c
    · simp [hx]
    · simp only [hx, if_false, reduceIte]
      rw [ih (i + 1), ih 1]
      cases firstIndexOfGo c rest 0 with
      | none => rfl
      | some a =>
        simp only [Option.map]
        congr 1
        omega

theorem firstIndexOf_cons (x : Char) (rest : Str) (c : Char) :
    firstIndexOf (x :: rest) c =
      if x = c then some 0 else (firstIndexOf rest c).map (· + 1) := by
  unfold firstIndexOf
  simp only [firstIndexOfGo]
  by_cases hx : x = c
  · simp [hx]
  · simp only [hx, if_false, reduceIte]
    exact firstIndexOfGo_shift c rest 1

theorem firstIndexOf_some_lt {c : Char} :
    ∀ {s : Str} {i : Nat}, firstIndexOf s c = some i → i < s.length := by
  intro s
  induction s with
  | nil => intro i h; exact absurd h (by simp [firstIndexOf, firstIndexOfGo])
  | cons x rest ih =>
    intro i h
    rw [firstIndexOf_cons] at h
    by_cases hx : x = c
    · rw [if_pos hx] at h
      injection h with h
      rw [← h]
      simp
    · simp only [hx, if_false, reduceIte, Option.map_eq_some'] at h
      obtain ⟨j, hj, rfl⟩ := h
      have := ih hj
      simp only [List.length_cons]
      omega

theorem splitAll_ne_nil (delim : Char) : ∀ (s : Str), splitAll delim s ≠ [] := by
  intro s
  cases s with
  | nil => simp [splitAll]
  | cons c rest =>
    cases hsr : splitAll delim rest with
    | nil => simp [splitAll, hsr]
    | cons seg segs =>
      simp only [splitAll, hsr]
      split <;> simp

theorem splitAll_eq_of_none {delim : Char} :
    ∀ {s : Str}, firstIndexOf s delim = none → splitAll delim s = [s] := by
  intro s
  induction s with
  | nil => intro _; rfl
  | cons x rest ih =>
    intro h
    rw [firstIndexOf_cons] at h
    by_cases hx : x = delim
    · simp [hx] at h
    · simp only [hx, if_false, reduceIte, Option.map_eq_none'] at h
      simp only [splitAll, ih h]
      simp [hx]

theorem splitAll_eq_of_some {delim : Char} :
    ∀ {s : Str} {i : Nat}, firstIndexOf s delim = some i →
      splitAll delim s = s.take i :: splitAll delim (s.drop (i + 1)) := by
  intro s
  induction s with
  | nil => intro i h; exact absurd h (by simp [firstIndexOf, firstIndexOfGo])
  | cons x rest ih =>
    intro i h
    rw [firstIndexOf_cons] at h
    by_cases hx : x = delim
    · simp only [hx, if_true, reduceIte, Option.some_inj] at h
      subst h
      subst hx
      simp only [splitAll, List.take_zero, List.drop_succ_cons, List.drop_zero]
      cases hsr : splitAll x rest with
      | nil => exact absurd hsr (splitAll_ne_nil x rest)
      | cons seg segs => simp
    · simp only [hx, if_false, reduceIte, Option.map_eq_some'] at h
      obtain ⟨j, hj, rfl⟩ := h
      simp only [splitAll, ih hj]
      simp only [List.take_succ_cons, List.drop_succ_cons]
      simp [hx]

theorem getLastD_default_irrel {α : Type} :
    ∀ (l : List α) (d d' : α), l ≠ [] → l.getLastD d = l.getLastD d' := by
  intro l
  induction l with
  | nil => intro d d' h; exact absurd rfl h
  | cons a rest ih =>
    intro d d' _
    cases rest with
    | nil => rfl
    | cons b bs =>
      have hx : (b :: bs).getLast? = some ((b :: bs).getLast (by simp)) :=
        List.getLast?_eq_getLast _ (by simp)
      simp [List.getLastD_cons, hx]

theorem getValueF_eq : ∀ (fuel : Nat) (s : Sect) (key : Str) (tag : VTag),
    key.length < fuel → getValueF fuel s key tag = s.getValue key tag := by
  intro fuel
  induction fuel using Nat.strong_induction_on with
  | _ fuel ih =>
    intro s key tag hk
    match fuel, hk with
    | n + 1, hk =>
      show getValueF (n + 1) s key tag = getValueF (key.length + 1) s key tag
      cases hfi : firstIndexOf key '.' with
      | none => simp only [getValueF, hfi]
      | some i =>
        have hkey : 0 < key.length := lt_of_le_of_lt (Nat.zero_le i) (firstIndexOf_some_lt hfi)
        have hlt : (key.drop (i + 1)).length < key.length := by
          simp only [List.length_drop]
          omega
        simp only [getValueF, hfi]
        cases alookup s.subs (key.take i) with
        | none => rfl
        | some sub =>
          show getValueF n sub (key.drop (i + 1)) tag
              = getValueF key.length sub (key.drop (i + 1)) tag
          rw [ih n (Nat.lt_succ_self n) sub _ tag
                (lt_of_lt_of_le hlt (Nat.lt_succ_iff.mp hk)),
              ih key.length hk sub _ tag hlt]

theorem getValue_eq_spec (key : Str) (s : Sect) (tag : VTag) :
    s.getValue key tag = getValueSpec s key tag := by
  suffices H : ∀ (n : Nat) (key : Str), key.length ≤ n → ∀ (s : Sect) (tag : VTag),
      s.getValue key tag = getValueSpec s key tag by
    exact H key.length key le_rfl s tag
  intro n
  induction n with
  | zero =>
    intro key hlen s tag
    have hk : key = [] := List.length_eq_zero.mp (Nat.le_zero.mp hlen)
    subst hk
    rfl
  | succ n ihn =>
    intro key hlen s tag
    cases hfi : firstIndexOf key '.' with
    | none =>
      have hs := splitAll_eq_of_none hfi
      show getValueF (key.length + 1) s key tag = getValueSpec s key tag
      unfold getValueSpec
      rw [hs]
      simp only [getValueF, hfi, List.dropLast_single, Sect.getAt, List.getLastD]
      rfl
    | some i =>
      have hi := firstIndexOf_some_lt hfi
      have hs := splitAll_eq_of_some hfi
      have hne := splitAll_ne_nil '.' (key.drop (i + 1))
      have hlt : (key.drop (i + 1)).length < key.length := by
        simp only [List.length_drop]
        omega
      have key_split : getValueSpec s key tag =
          match alookup s.subs (key.take i) with
          | none => .error .SectionNotPresent
          | some sub => getValueSpec sub (key.drop (i + 1)) tag := by
        unfold getValueSpec
        rw [hs, List.dropLast_cons_of_ne_nil hne, List.getLastD_cons]
        rw [getLastD_default_irrel _ (key.take i) [] hne]
        cases hal : alookup s.subs (key.take i) with
        | none => simp [Sect.getAt, hal]
        | some sub => simp [Sect.getAt, hal]
      rw [key_split]
      show getValueF (key.length + 1) s key tag = _
      simp only [getValueF, hfi]
      cases hal : alookup s.subs (key.take i) with
      | none => rfl
      | some sub =>
        show getValueF key.length sub (key.drop (i + 1)) tag = _
        rw [getValueF_eq key.length sub (key.drop (i + 1)) tag hlt]
        exact ihn (key.drop (i + 1)) (by omega) sub tag

theorem goElems_tags_some {pv : Str → Except CRes Value} :
    ∀ (els : List Str) (t : VTag) (acc vs : List Value),
      goElems pv els (some t) acc = .ok vs → ∀ v ∈ vs, v ∈ acc ∨ v.tag = t := by
  intro els
  induction els with
  | nil =>
    intro t acc vs h v hv
    simp only [goElems, Except.ok.injEq] at h
    subst h
    exact Or.inl hv
  | cons e es ih =>
    intro t acc vs h v hv
    simp only [goElems] at h
    cases hpe : pv e with
    | error err => simp [hpe] at h
    | ok w =>
      rw [hpe] at h
      by_cases hw : w.tag = t
      · simp only [hw, if_true, reduceIte] at h
        rcases ih t (acc ++ [w]) vs h v hv with h2 | h2
        · rcases List.mem_append.1 h2 with h3 | h3
          · exact Or.inl h3
          · simp at h3
            exact Or.inr (h3 ▸ hw)
        · exact Or.inr h2
      · simp [hw] at h

theorem goElems_homogeneous {pv : Str → Except CRes Value} :
    ∀ (els : List Str) (vs : List Value),
      goElems pv els none [] = .ok vs →
      ∀ v₁ ∈ vs, ∀ v₂ ∈ vs, v₁.tag = v₂.tag := by
  intro els vs h v1 h1 v2 h2
  cases els with
  | nil =>
    simp only [goElems, Except.ok.injEq] at h
    subst h
    simp at h1
  | cons e es =>
    simp only [goElems] at h
    cases hpe : pv e with
    | error err => simp [hpe] at h
    | ok w =>
      rw [hpe] at h
      have g1 := goElems_tags_some es w.tag [w] vs h v1 h1
      have g2 := goElems_tags_some es w.tag [w] vs h v2 h2
      have t1 : v1.tag = w.tag := by
        rcases g1 with g | g
        · simp at g; rw [g]
        · exact g
      have t2 : v2.tag = w.tag := by
        rcases g2 with g | g
        · simp at g; rw [g]
        · exact g
      rw [t1, t2]

theorem alookup_aset {α : Type} :
    ∀ (l : List (Str × α)) (k : Str) (v : α), alookup (aset l k v) k = some v := by
  intro l
  induction l with
  | nil => intro k v; simp [aset, alookup]
  | cons p rest ih =>
    intro k v
    obtain ⟨k', a⟩ := p
    simp only [aset]
    by_cases hk : k' = k
    · simp [alookup, hk]
    · simp only [hk, if_false, reduceIte, alookup]
      exact ih k v

theorem descendCreate_empty :
    ∀ (segs : List Str), (∀ n ∈ segs, isNameValid n = true) →
      (descendCreate emptySect segs).2 = none := by
  intro segs
  induction segs with
  | nil => intro _; rfl
  | cons name rest ih =>
    intro hv
    have hvn : isNameValid name := hv name (List.mem_cons_self name rest)
    simp only [descendCreate, hvn, if_true, reduceIte]
    show (descendCreate emptySect rest).2 = none
    exact ih (fun x hx => hv x (List.mem_cons_of_mem name hx))

theorem descendCreate_snd :
    ∀ (segs : List Str) (s : Sect), segs ≠ [] →
      (∀ n ∈ segs, isNameValid n = true) →
      (descendCreate s segs).2 =
        if (s.getAt segs).isSome then some .SectionAlreadyPresent else none := by
  intro segs
  induction segs with
  | nil => intro s h; exact absurd rfl h
  | cons name rest ih =>
    intro s _ hv
    have hvn : isNameValid name := hv name (List.mem_cons_self name rest)
    cases hal : alookup s.subs name with
    | some child =>
      cases rest with
      | nil =>
        have hg : s.getAt [name] = some child := by simp [Sect.getAt, hal]
        rw [hg, descendCreate.eq_def]
        simp [hvn, hal]
      | cons r rs =>
        have hg : s.getAt (name :: r :: rs) = child.getAt (r :: rs) := by
          simp [Sect.getAt, hal]
        rw [hg, descendCreate.eq_def]
        simp only [hvn, if_true, reduceIte, hal, List.cons_ne_nil, if_false]
        show (descendCreate child (r :: rs)).2 = _
        exact ih child (by simp) (fun x hx => hv x (List.mem_cons_of_mem name hx))
    | none =>
      have hg : s.getAt (name :: rest) = none := by simp [Sect.getAt, hal]
      rw [hg, descendCreate.eq_def]
      simp only [hvn, if_true, reduceIte, hal]
      show (descendCreate emptySect rest).2 = _
      rw [descendCreate_empty rest (fun x hx => hv x (List.mem_cons_of_mem name hx))]
      simp


/-- Helper for C4: characterization of `IntValue::Parse` on tokens whose
underscore-cleaned form is non-empty. -/
theorem c4_characterization :
    ∀ (s : Str), removeAll s '_' ≠ [] →
      (s.getLast? = some 'h' →
          intParse s = mapStollResult .Hexadecimal (stoll 16 s.dropLast)) ∧
      (s.getLast? = some 'b' →
          intParse s = mapStollResult .Binary (stoll 2 s.dropLast)) ∧
      (∀ c, s.getLast? = some c → c ≠ 'h' → c ≠ 'b' →
          intParse s =
            if isIntegerDecimal (removeAll s '_') then
              mapStollResult .Decimal (stoll 10 (removeAll s '_'))
            else .error .IntegerValueInvalid) := by
  intro s hs
  obtain ⟨c0, cs, rfl⟩ : ∃ c0 cs, s = c0 :: cs := by
    cases s with
    | nil => exact absurd rfl hs
    | cons a b => exact ⟨a, b, rfl⟩
  have hl : (c0 :: cs).getLast? = some ((c0 :: cs).getLast (List.cons_ne_nil c0 cs)) :=
    List.getLast?_eq_getLast _ (List.cons_ne_nil c0 cs)
  refine ⟨?_, ?_, ?_⟩
  · intro h
    rw [hl] at h
    injection h with h
    simp [intParse, hs, h]
  · intro h
    rw [hl] at h
    injection h with h
    simp [intParse, hs, h]
  · intro c h hch hcb
    rw [hl] at h
    injection h with h
    have h1 : (c0 :: cs).getLast (List.cons_ne_nil c0 cs) ≠ 'h' := by
      rw [h]; exact hch
    have h2 : (c0 :: cs).getLast (List.cons_ne_nil c0 cs) ≠ 'b' := by
      rw [h]; exact hcb
    simp [intParse, hs, h1, h2]


/-! ## Claim theorems -/

/-- C1 (counterexample): the claim says the hex value parsed from `"0ffh"`
re-serializes to exactly `"0ffh"`; in fact `IntValue::ToString` streams the
value with `std::hex` and no leading zero, producing `"ffh"`. -/
theorem c1_hex_roundtrip_cex :
    intParse ("0ffh".toList) = .ok (255, .Hexadecimal) ∧
    intToString 255 .Hexadecimal ≠ "0ffh".toList := by
  exact ⟨rfl, by decide⟩

/-- C1 (amended): `"255"` parses to decimal 255 and re-serializes to
`"255"`; `"0ffh"` parses to hex 255 but re-serializes to `"ffh"` (lowercase
hex digits without the leading zero, plus `h`); `"11111111b"` parses to
binary 255 and re-serializes to `"11111111b"`; the value 0 with binary style
serializes as `"0b"`. -/
theorem c1_integer_codec :
    intParse ("255".toList) = .ok (255, .Decimal) ∧
    intToString 255 .Decimal = "255".toList ∧
    intParse ("0ffh".toList) = .ok (255, .Hexadecimal) ∧
    intToString 255 .Hexadecimal = "ffh".toList ∧
    intParse ("11111111b".toList) = .ok (255, .Binary) ∧
    intToString 255 .Binary = "11111111b".toList ∧
    intToString 0 .Binary = "0b".toList := by
  refine ⟨rfl, by decide, rfl, by decide, rfl, by decide, by decide⟩

/-- C2 (counterexample): after parsing `[a.b.c]` + `x = 1`, the claim says
`GetValue("a.b.x")` fails with `SectionNotPresent`; in fact sections `a` and
`b` exist (created as intermediates of `[a.b.c]`), so the final segment `x`
is looked up as a key in section `a.b` and the call fails with
`KeyNotPresent`. -/
theorem c2_path_error_cex :
    (parseRun ["[a.b.c]".toList, "x = 1".toList]).1.getValue ("a.b.x".toList) .int
        = .error .KeyNotPresent ∧
    EResult.KeyNotPresent ≠ EResult.SectionNotPresent := by
  exact ⟨rfl, by decide⟩

/-- C2 (amended): `GetValue` equals its spec-side description — split the
path on each `.`, resolve all segments but the last through subsections
(`SectionNotPresent` when one is missing), look the final segment up in the
resolved section's key map (`KeyNotPresent` when absent, `InvalidDataType`
when the variant differs); concretely, after `[a.b.c]` + `x = 1`:
`GetValue("a.b.c.x")` returns Int 1, `GetValue("a.b.x")` fails
`KeyNotPresent`, `GetValue("a.q.x")` fails `SectionNotPresent`, and asking
for `a.b.c.x` as a string fails `InvalidDataType`. -/
theorem c2_getValue_path_addressing :
    (∀ (s : Sect) (key : Str) (tag : VTag), s.getValue key tag = getValueSpec s key tag) ∧
    (parseRun ["[a.b.c]".toList, "x = 1".toList]).1.getValue ("a.b.c.x".toList) .int
        = .ok (.int 1 .Decimal) ∧
    (parseRun ["[a.b.c]".toList, "x = 1".toList]).1.getValue ("a.b.x".toList) .int
        = .error .KeyNotPresent ∧
    (parseRun ["[a.b.c]".toList, "x = 1".toList]).1.getValue ("a.q.x".toList) .int
        = .error .SectionNotPresent ∧
    (parseRun ["[a.b.c]".toList, "x = 1".toList]).1.getValue ("a.b.c.x".toList) .str
        = .error .InvalidDataType := by
  exact ⟨fun s key tag => getValue_eq_spec key s tag, rfl, rfl, rfl, rfl⟩

/-- C3: for every non-empty value token, `ParseValue` dispatches on the
first/last characters in priority order: leading `"` selects String (with
`MissingQuote` when the last character is not `"`); otherwise trailing `e`
selects Bool (exactly `"true"`/`"false"`, else `BooleanValueInvalid`);
otherwise trailing `f` selects Float; otherwise trailing `]` selects Array;
otherwise Int. -/
theorem c3_value_dispatch (v : Str) (hv : v ≠ []) :
    (v.head? = some '"' → v.getLast? ≠ some '"' →
        parseValue v = .error (.res .MissingQuote)) ∧
    (v.head? = some '"' → v.getLast? = some '"' →
        parseValue v = liftE Value.str (unescape ((v.drop 1).take (v.length - 2)))) ∧
    (v.head? ≠ some '"' → v.getLast? = some 'e' →
        parseValue v = liftE Value.bool (boolParse v)) ∧
    (∀ b, boolParse v = .ok b ↔
        (v = "true".toList ∧ b = true) ∨ (v = "false".toList ∧ b = false)) ∧
    (v ≠ "true".toList → v ≠ "false".toList →
        boolParse v = .error .BooleanValueInvalid) ∧
    (v.head? ≠ some '"' → v.getLast? ≠ some 'e' → v.getLast? = some 'f' →
        parseValue v = liftE Value.float (floatParse v)) ∧
    (v.head? ≠ some '"' → v.getLast? ≠ some 'e' → v.getLast? ≠ some 'f' →
        v.getLast? = some ']' → parseValue v = arrayParse v) ∧
    (v.head? ≠ some '"' → v.getLast? ≠ some 'e' → v.getLast? ≠ some 'f' →
        v.getLast? ≠ some ']' →
        parseValue v = liftE (fun p => Value.int p.1 p.2) (intParse v)) := by
  obtain ⟨c, cs, rfl⟩ : ∃ c cs, v = c :: cs := by
    cases v with
    | nil => exact absurd rfl hv
    | cons c cs => exact ⟨c, cs, rfl⟩
  have hl : (c :: cs).getLast? = some ((c :: cs).getLast (List.cons_ne_nil c cs)) :=
    List.getLast?_eq_getLast _ (List.cons_ne_nil c cs)
  have hh : (c :: cs).head? = some c := rfl
  rw [parseValue_eq]
  refine ⟨?_, ?_, ?_, ?_, ?_, ?_, ?_, ?_⟩
  · intro h1 h2
    rw [hh] at h1
    injection h1 with h1
    subst h1
    rw [hl] at h2
    have h2' : ('"' :: cs).getLast (List.cons_ne_nil '"' cs) ≠ '"' := by
      intro he; exact h2 (by rw [he])
    simp [parseValueBody, h2']
  · intro h1 h2
    rw [hh] at h1
    injection h1 with h1
    subst h1
    rw [hl] at h2
    injection h2 with h2
    simp [parseValueBody, h2]
  · intro h1 h2
    have h1' : c ≠ '"' := by
      intro he; exact h1 (by rw [hh, he])
    rw [hl] at h2
    injection h2 with h2
    simp [parseValueBody, h1', h2]
  · intro b
    unfold boolParse
    by_cases ht : c :: cs = "true".toList
    · rw [if_pos ht]
      constructor
      · intro hb
        injection hb with hb
        exact Or.inl ⟨ht, hb.symm⟩
      · rintro (⟨_, rfl⟩ | ⟨hb, rfl⟩)
        · rfl
        · rw [ht] at hb
          exact absurd hb (by decide)
    · rw [if_neg ht]
      by_cases hf : c :: cs = "false".toList
      · rw [if_pos hf]
        constructor
        · intro hb
          injection hb with hb
          exact Or.inr ⟨hf, hb.symm⟩
        · rintro (⟨hb, rfl⟩ | ⟨_, rfl⟩)
          · rw [hf] at hb
            exact absurd hb (by decide)
          · rfl
      · rw [if_neg hf]
        constructor
        · intro hb
          exact absurd hb (by simp)
        · rintro (⟨hb, _⟩ | ⟨hb, _⟩)
          · exact absurd hb ht
          · exact absurd hb hf
  · intro ht hf
    unfold boolParse
    rw [if_neg ht, if_neg hf]
  · intro h1 h2 h3
    have h1' : c ≠ '"' := by
      intro he; exact h1 (by rw [hh, he])
    rw [hl] at h2 h3
    have h2' : (c :: cs).getLast (List.cons_ne_nil c cs) ≠ 'e' := by
      intro he; exact h2 (by rw [he])
    injection h3 with h3
    simp [parseValueBody, h1', h2', h3]
  · intro h1 h2 h3 h4
    have h1' : c ≠ '"' := by
      intro he; exact h1 (by rw [hh, he])
    rw [hl] at h2 h3 h4
    have h2' : (c :: cs).getLast (List.cons_ne_nil c cs) ≠ 'e' := by
      intro he; exact h2 (by rw [he])
    have h3' : (c :: cs).getLast (List.cons_ne_nil c cs) ≠ 'f' := by
      intro he; exact h3 (by rw [he])
    injection h4 with h4
    simp [parseValueBody, h1', h2', h3', h4, arrayParse]
  · intro h1 h2 h3 h4
    have h1' : c ≠ '"' := by
      intro he; exact h1 (by rw [hh, he])
    rw [hl] at h2 h3 h4
    have h2' : (c :: cs).getLast (List.cons_ne_nil c cs) ≠ 'e' := by
      intro he; exact h2 (by rw [he])
    have h3' : (c :: cs).getLast (List.cons_ne_nil c cs) ≠ 'f' := by
      intro he; exact h3 (by rw [he])
    have h4' : (c :: cs).getLast (List.cons_ne_nil c cs) ≠ ']' := by
      intro he; exact h4 (by rw [he])
    simp [parseValueBody, h1', h2', h3', h4']


/-- C3 witness: the dispatch theorem applied at concrete tokens. -/
theorem c3_value_dispatch_witness :
    parseValue ("\"a".toList) = .error (.res .MissingQuote) ∧
    parseValue ("[1]".toList) = arrayParse ("[1]".toList) ∧
    boolParse ("truee".toList) = .error .BooleanValueInvalid := by
  refine ⟨?_, ?_, ?_⟩
  · exact (c3_value_dispatch ("\"a".toList) (by decide)).1 (by decide) (by decide)
  · exact (c3_value_dispatch ("[1]".toList) (by decide)).2.2.2.2.2.2.1
      (by decide) (by decide) (by decide) (by decide)
  · exact (c3_value_dispatch ("truee".toList) (by decide)).2.2.2.2.1
      (by decide) (by decide)

/-- C4 (counterexample): the claim says underscores are removed before any
radix interpretation, so `"1_0b"` would parse as binary `10` = 2; in fact
the binary path hands the original prefix `"1_0"` to `std::stoll`, which
stops at the underscore, so the value is 1. -/
theorem c4_underscore_cex :
    intParse ("1_0b".toList) = .ok (1, .Binary) ∧
    intParse ("1_0b".toList) ≠ .ok (2, .Binary) := by
  exact ⟨rfl, by decide⟩

/-- C4 (amended): underscores are removed only for the decimal
interpretation; radix selection inspects the last character of the original
token, and for a trailing `h`/`b` the original token minus that character
(underscores retained) is handed to the base-16/base-2 `stoll` scan, which
parses the longest valid digit prefix, so an underscore ends the digits;
otherwise the underscore-cleaned string must consist solely of digits 0-9
(else `IntegerValueInvalid`) and is parsed as decimal; a value that does not
fit in int64 fails with `IntegerValueOutOfRange`. -/
theorem c4_int_token_parsing :
    (∀ (s : Str), removeAll s '_' ≠ [] →
      (s.getLast? = some 'h' →
          intParse s = mapStollResult .Hexadecimal (stoll 16 s.dropLast)) ∧
      (s.getLast? = some 'b' →
          intParse s = mapStollResult .Binary (stoll 2 s.dropLast)) ∧
      (∀ c, s.getLast? = some c → c ≠ 'h' → c ≠ 'b' →
          intParse s =
            if isIntegerDecimal (removeAll s '_') then
              mapStollResult .Decimal (stoll 10 (removeAll s '_'))
            else .error .IntegerValueInvalid)) ∧
    intParse ("2_55".toList) = .ok (255, .Decimal) ∧
    intParse ("1_0b".toList) = .ok (1, .Binary) ∧
    intParse ("f_fh".toList) = .ok (15, .Hexadecimal) ∧
    intParse ("12x".toList) = .error .IntegerValueInvalid ∧
    intParse ("99999999999999999999999".toList) = .error .IntegerValueOutOfRange := by
  exact ⟨c4_characterization, rfl, rfl, rfl, rfl, rfl⟩

/-- C4 witness: the characterization applied at the concrete token
`"0ffh"`. -/
theorem c4_int_token_parsing_witness :
    intParse ("0ffh".toList)
      = mapStollResult .Hexadecimal (stoll 16 (("0ffh".toList).dropLast)) := by
  exact (c4_int_token_parsing.1 ("0ffh".toList) (by decide)).1 (by decide)

/-- C5 (counterexample): the claim says `SetSubSection` with
`allowOverwrite = true` on an existing name reports the overwrite distinctly
from plain success; in fact it returns plain `Success`. -/
theorem c5_subsection_overwrite_cex :
    ((Sect.mk [] [("a".toList, emptySect)] []).setSubSection ("a".toList) emptySect true).2
        = .Success ∧
    EResult.Success ≠ EResult.ValueOverwritten := by
  exact ⟨rfl, by decide⟩

/-- C5 (amended): `SetValue` on a present name fails `KeyAlreadyPresent`
without `allowOverwrite` and reports `ValueOverwritten` (storing the new
value) with it; `SetSubSection` has the same gating (`SectionAlreadyPresent`
when not allowed, prior section replaced when allowed) but returns plain
`Success` even when it overwrites. -/
theorem c5_overwrite_semantics :
    ∀ (s : Sect) (name : Str) (v : Value × List Str) (sub : Sect),
      ((alookup s.values name).isSome →
        s.setValue name v false = (s, .KeyAlreadyPresent) ∧
        (s.setValue name v true).2 = .ValueOverwritten ∧
        alookup (s.setValue name v true).1.values name = some v) ∧
      (alookup s.values name = none →
        (s.setValue name v false).2 = .Success ∧
        alookup (s.setValue name v false).1.values name = some v) ∧
      ((alookup s.subs name).isSome →
        s.setSubSection name sub false = (s, .SectionAlreadyPresent) ∧
        (s.setSubSection name sub true).2 = .Success ∧
        alookup (s.setSubSection name sub true).1.subs name = some sub) ∧
      (alookup s.subs name = none →
        (s.setSubSection name sub false).2 = .Success ∧
        alookup (s.setSubSection name sub false).1.subs name = some sub) := by
  intro s name v sub
  refine ⟨?_, ?_, ?_, ?_⟩
  · intro hp
    cases hv : alookup s.values name with
    | none => rw [hv] at hp; exact absurd hp (by simp)
    | some w =>
      unfold Sect.setValue
      rw [hv]
      exact ⟨rfl, rfl, by simp [Sect.values, alookup_aset]⟩
  · intro hv
    unfold Sect.setValue
    rw [hv]
    exact ⟨rfl, by simp [Sect.values, alookup_aset]⟩
  · intro hp
    cases hv : alookup s.subs name with
    | none => rw [hv] at hp; exact absurd hp (by simp)
    | some w =>
      unfold Sect.setSubSection
      rw [hv]
      exact ⟨rfl, rfl, by simp [Sect.subs, alookup_aset]⟩
  · intro hv
    unfold Sect.setSubSection
    rw [hv]
    exact ⟨rfl, by simp [Sect.subs, alookup_aset]⟩

/-- C5 witness: the overwrite semantics applied to a concrete section with
one existing subsection `a` and one existing key `x`. -/
theorem c5_overwrite_semantics_witness :
    ((Sect.mk [("x".toList, (Value.int 1 .Decimal, []))] [("a".toList, emptySect)] []).setValue
        ("x".toList) (Value.int 2 .Decimal, []) true).2 = .ValueOverwritten ∧
    ((Sect.mk [("x".toList, (Value.int 1 .Decimal, []))] [("a".toList, emptySect)] []).setSubSection
        ("a".toList) emptySect true).2 = .Success := by
  constructor
  · exact ((c5_overwrite_semantics
      (Sect.mk [("x".toList, (Value.int 1 .Decimal, []))] [("a".toList, emptySect)] [])
      ("x".toList) (Value.int 2 .Decimal, []) emptySect).1 (by decide)).2.1
  · exact ((c5_overwrite_semantics
      (Sect.mk [("x".toList, (Value.int 1 .Decimal, []))] [("a".toList, emptySect)] [])
      ("a".toList) (Value.int 2 .Decimal, []) emptySect).2.2.1 (by decide)).2.1

/-- C6: `[1, 2, 3]` parses to a 3-element Int array; `[1, "a"]` fails with
`ArrayDataTypeInconsistency`; `[]` parses to a zero-element array; and in
general a successful element fold yields only values of one variant tag (the
first successfully parsed element fixes it). -/
theorem c6_array_homogeneity :
    parseValue ("[1, 2, 3]".toList)
        = .ok (.arr [.int 1 .Decimal, .int 2 .Decimal, .int 3 .Decimal]) ∧
    parseValue ("[1, \"a\"]".toList) = .error (.res .ArrayDataTypeInconsistency) ∧
    parseValue ("[]".toList) = .ok (.arr []) ∧
    (∀ (pv : Str → Except CRes Value) (els : List Str) (vs : List Value),
      goElems pv els none [] = .ok vs →
      ∀ v₁ ∈ vs, ∀ v₂ ∈ vs, v₁.tag = v₂.tag) := by
  exact ⟨rfl, rfl, rfl, fun pv els vs h => goElems_homogeneous els vs h⟩

/-- C6 witness: homogeneity of the successfully parsed `["1", "2"]`. -/
theorem c6_array_homogeneity_witness :
    ∀ v₁ ∈ [Value.int 1 .Decimal, Value.int 2 .Decimal],
      ∀ v₂ ∈ [Value.int 1 .Decimal, Value.int 2 .Decimal], v₁.tag = v₂.tag := by
  exact c6_array_homogeneity.2.2.2 parseValue ["1".toList, "2".toList]
    [Value.int 1 .Decimal, Value.int 2 .Decimal] rfl

/-- C7: a duplicate key in a section fails `KeyAlreadyPresent`; re-declaring
a leaf section fails `SectionAlreadyPresent` while existing intermediate
segments are tolerated (both `a.b.c` and `a.b.d` coexist); a key=value line
before any header fails `KeyValuePairNotInSection`; in general the header
creation walk errors with `SectionAlreadyPresent` exactly when the full
dotted path already exists. -/
theorem c7_parser_duplicates :
    (parseRun ["[s]".toList, "x = 1".toList, "x = 2".toList]).2 = .res .KeyAlreadyPresent ∧
    (parseRun ["[a.b.c]".toList, "[a.b.c]".toList]).2 = .res .SectionAlreadyPresent ∧
    (parseRun ["[a.b.c]".toList, "[a.b.d]".toList]).2 = .res .Success ∧
    isOkE ((parseRun ["[a.b.c]".toList, "[a.b.d]".toList]).1.getSubSection ("a.b.c".toList))
        = true ∧
    isOkE ((parseRun ["[a.b.c]".toList, "[a.b.d]".toList]).1.getSubSection ("a.b.d".toList))
        = true ∧
    (parseRun ["x = 1".toList]).2 = .res .KeyValuePairNotInSection ∧
    (∀ (s : Sect) (segs : List Str), segs ≠ [] →
      (∀ n ∈ segs, isNameValid n = true) →
      (descendCreate s segs).2 =
        if (s.getAt segs).isSome then some .SectionAlreadyPresent else none) := by
  exact ⟨rfl, rfl, rfl, rfl, rfl, rfl, fun s segs h1 h2 => descendCreate_snd segs s h1 h2⟩

/-- C7 witness: the header-creation characterization applied at a concrete
tree and path. -/
theorem c7_parser_duplicates_witness :
    (descendCreate emptySect ["a".toList]).2 =
      if (emptySect.getAt ["a".toList]).isSome then some EResult.SectionAlreadyPresent
      else none := by
  exact c7_parser_duplicates.2.2.2.2.2.2 emptySect ["a".toList] (by decide) (by decide)

/-- C8: the claim says trimming keeps all string indexing in bounds and a
line of only spaces/tabs is ignored; in fact `StringTrim`'s trailing scan
decrements its `size_t` index past zero on an all-whitespace line, wrapping
to `2^64 - 1` and reading out of bounds (`stringTrim` = `none`, `Parse`
outcome `oob`), while lines with any non-whitespace character trim
correctly. -/
theorem c8_trim_oob :
    stringTrim (" ".toList) = none ∧
    stringTrim (" \t  ".toList) = none ∧
    stringTrim ("  a\tb ".toList) = some ("a\tb".toList) ∧
    (parseRun [" ".toList]).2 = .oob ∧
    (parseRun [" ".toList, "[s]".toList, "x = 1".toList]).2 = .oob := by
  exact ⟨rfl, rfl, rfl, rfl, rfl⟩

/-- C9: the claim says every element string `ArrayValue::Parse` hands to the
recursive value parser is non-empty; in fact the comma branch pushes the
current element even when it is empty, so `[,]` yields the element list
`[""]` and `[1,,2]` yields `["1", "", "2"]`, and `ParseValue` then reads
`front()`/`back()` of an empty string out of bounds (outcome `oob`),
reachable through `Parse`. -/
theorem c9_empty_array_elements :
    splitElements ("[,]".toList) = .ok [[]] ∧
    splitElements ("[1,,2]".toList) = .ok ["1".toList, [], "2".toList] ∧
    parseValue ([] : Str) = .error .oob ∧
    parseValue ("[,]".toList) = .error .oob ∧
    parseValue ("[1,,2]".toList) = .error .oob ∧
    (parseRun ["[s]".toList, "x = [,]".toList]).2 = .oob := by
  exact ⟨rfl, rfl, rfl, rfl, rfl, rfl⟩

/-- C10: `Parse` with `additional = false` clears the root section's
comments, values and subsections before opening the file, so when the path
cannot be opened it returns `FileIOError` with the previously held tree
already discarded. -/
theorem c10_parse_clears_before_open :
    ∀ (root : Sect), ParseFile root false none = (emptySect, .res .FileIOError) := by
  exact fun _ => rfl

end Minipp
